import Mathlib

/-!
Verification of choreworld.py: a shallow embedding of the rotation scheduler,
calendar resolver, atomic site builder, notification composer and endpoint-table
generator, with theorems about the specified properties.

Machine conventions of the embedding: Python integers are Lean `Int`/`Nat`;
Python `%` with a positive modulus is `Int.emod`; Python `//` is `Int.fdiv`
(floor division); a Python `dict` built in insertion order is an association
list; code that can raise returns `Except PyError`.
-/

/-- Chore record (choreworld.py, class Chore): stable `id` and display `name`. -/
structure Chore where
  id : String
  name : String
deriving DecidableEq

/-- ChoreGroup record (choreworld.py, class ChoreGroup): `chores` models the
insertion-ordered values of the `dict[str, Chore]` keyed by chore id (dict keys
are unique, so the ids are assumed distinct where a claim needs it), `people`
the ordered roster. -/
structure ChoreGroup where
  id : String
  name : String
  chores : List Chore
  people : List String
deriving DecidableEq

/-- Python runtime errors the embedded code can raise. -/
inductive PyError where
  | zeroDivisionError
  | indexError
  | keyError
deriving DecidableEq

/-- Python `a % n` with a `len()` as divisor: raises ZeroDivisionError when
`n = 0`, otherwise the nonnegative remainder (`Int.emod`, which agrees with
Python `%` for a positive modulus). -/
def pyMod (a : Int) (n : Nat) : Except PyError Int :=
  if n = 0 then .error .zeroDivisionError else .ok (a % (n : Int))

/-- Python `xs[j]` for a nonnegative index as produced by `pyMod` (the
negative-index wrap-around of Python is never exercised here since the
modulus is positive whenever this runs). -/
def pyIndex (xs : List String) (j : Int) : Except PyError String :=
  if h : 0 ≤ j ∧ j.toNat < xs.length then .ok (xs.get ⟨j.toNat, h.2⟩) else .error .indexError

/-- The comprehension loop of `assign_chores` (lines 66–69): `i` is the
`enumerate` index of the chore being assigned. -/
def assignFrom (off : Int) (people : List String) : Nat → List Chore → Except PyError (List (String × String))
  | _, [] => .ok []
  | i, c :: cs =>
    match pyMod ((i : Int) + off) people.length with
    | .error e => .error e
    | .ok j =>
      match pyIndex people j with
      | .error e => .error e
      | .ok person =>
        match assignFrom off people (i + 1) cs with
        | .error e => .error e
        | .ok rest => .ok ((c.id, person) :: rest)

/-- Function `assign_chores` (choreworld.py lines 64–69): the ordered chore-id → person
mapping of one group at one rotation offset. -/
def assign_chores (off : Int) (group : ChoreGroup) : Except PyError (List (String × String)) :=
  assignFrom off group.people 0 group.chores

/-- The assignee of the chore at position `i` of the group's chore list, when
`assign_chores` succeeds. -/
def choreAssignee (off : Int) (group : ChoreGroup) (i : Nat) : Option String :=
  match assign_chores off group with
  | .ok m => (m[i]?).map Prod.snd
  | .error _ => none

/-- A concrete chore group used to instantiate theorems. -/
def gMain : ChoreGroup :=
  ⟨"main", "Main", [⟨"bins", "Bins"⟩, ⟨"mop", "Mop"⟩, ⟨"vacuum", "Vacuum"⟩], ["Alice", "Bob"]⟩

/-- A group with an empty roster and an empty chore list. -/
def gEmpty : ChoreGroup := ⟨"empty", "Empty", [], []⟩

/-- A group with an empty roster but a nonempty chore list. -/
def gNoPeople : ChoreGroup := ⟨"solo", "Solo", [⟨"bins", "Bins"⟩], []⟩

/-- A timezone-aware datetime of the configured zone (Pacific/Auckland),
modelled at second resolution with a fixed UTC offset (the DST transitions of
the external tz database are not modelled): `day` counts calendar days since
the epoch date 2021-04-11 (a Sunday), `sec` is the wall-clock second within
the day. -/
structure Datetime where
  day : Int
  sec : Nat
  sec_lt : sec < 86400

/-- START_WEEK = datetime(2021, 4, 11, tzinfo=TZINFO) (line 23): day 0. -/
def START_WEEK : Datetime := ⟨0, 0, by omega⟩

/-- Python date.weekday(): Monday = 0 .. Sunday = 6; day 0 (2021-04-11) is a
Sunday, so the weekday of day d is (d + 6) mod 7. -/
def weekday (d : Datetime) : Nat := ((d.day + 6) % 7).toNat

/-- Total seconds of the timedelta a - b. -/
def tdSeconds (a b : Datetime) : Int := (a.day - b.day) * 86400 + ((a.sec : Int) - (b.sec : Int))

/-- The .days attribute of the timedelta a - b: Python normalizes a timedelta
so that .days is the floor of the total seconds over 86400. -/
def tdDays (a b : Datetime) : Int := (tdSeconds a b).fdiv 86400

/-- Function `offset` (choreworld.py lines 76–77): (date - START_WEEK).days // 7. -/
def offset (date : Datetime) : Int := (tdDays date START_WEEK).fdiv 7

/-- Function `week_sunday` (choreworld.py lines 80–82):
date + timedelta(days=(6 - date.weekday()) % 7); the addition is wall-clock
day arithmetic, the time of day is unchanged. -/
def week_sunday (date : Datetime) : Datetime :=
  ⟨date.day + ((6 - (weekday date : Int)) % 7), date.sec, date.sec_lt⟩

/-- Index of the Monday-to-Sunday calendar week containing d: days 1..7 (the
week Monday 2021-04-12 .. Sunday 2021-04-18) form week 1, and so on. -/
def weekIndex (d : Datetime) : Int := (d.day + 6).fdiv 7

/-- Two instants fall in the same Monday-to-Sunday calendar week of the
configured timezone. -/
def sameWeek (a b : Datetime) : Prop := weekIndex a = weekIndex b

instance (a b : Datetime) : Decidable (sameWeek a b) := by
  unfold sameWeek; infer_instance

/-- Monday 2021-04-12, midnight. -/
def dtMonday : Datetime := ⟨1, 0, by omega⟩

/-- Sunday 2021-04-18, midnight: the last day of the same Monday-to-Sunday
week as dtMonday. -/
def dtSunday : Datetime := ⟨7, 0, by omega⟩

/-- The file system as the Builder sees it: the scratch `tempdir` entries
(path, contents) and the live `output` directory (`none` when it does not
exist). -/
structure FSpace where
  tempdir : List (String × String)
  output : Option (List (String × String))
deriving DecidableEq

/-- One staging step performed inside the Builder context (`copy_dir`,
`render_template`, a `builder.open(...)` write), plus `throwStep`, an
exception raised by a collaborator during staging (e.g. a rendering error). -/
inductive StageStep where
  | copyDir (destPath : String) (contents : List (String × String))
  | renderTemplate (path : String) (rendered : String)
  | writeFile (path : String) (contents : String)
  | throwStep
deriving DecidableEq

/-- Effect of one staging step: every write lands in the scratch tempdir only
(lines 119–138 all write under `self.tempdir`). -/
def runStep : StageStep → FSpace → Except Unit FSpace
  | .copyDir dest cs, fs =>
    .ok ⟨fs.tempdir ++ cs.map (fun pc => (dest ++ "/" ++ pc.1, pc.2)), fs.output⟩
  | .renderTemplate p r, fs => .ok ⟨fs.tempdir ++ [(p ++ "/index.html", r)], fs.output⟩
  | .writeFile p c, fs => .ok ⟨fs.tempdir ++ [(p, c)], fs.output⟩
  | .throwStep, _ => .error ()

/-- Run the staging steps in order; returns whether an exception was raised,
and the resulting file system (at the point of failure, when one was). -/
def runStaging : List StageStep → FSpace → Bool × FSpace
  | [], fs => (false, fs)
  | s :: rest, fs =>
    match runStep s fs with
    | .ok fs' => runStaging rest fs'
    | .error _ => (true, fs)

/-- Method `Builder.__exit__` (choreworld.py lines 108–114): with no exception,
remove the live output if it exists and move the scratch into its place; on
an exception, clean up the scratch directory only. -/
def builderExit (excRaised : Bool) (fs : FSpace) : FSpace :=
  if excRaised then ⟨[], fs.output⟩ else ⟨[], some fs.tempdir⟩

/-- A whole build (the `generate` command shape): a fresh empty scratch, the
staging steps, then `__exit__` with the exception flag. -/
def runBuild (steps : List StageStep) (prevOutput : Option (List (String × String))) : FSpace :=
  builderExit (runStaging steps ⟨[], prevOutput⟩).1 (runStaging steps ⟨[], prevOutput⟩).2

/-- Python str.lower(), modelled characterwise (faithful on the ASCII chore
names that occur). -/
def strLower (s : String) : String := ⟨s.data.map Char.toLower⟩

/-- The chores_list text of `notify` (choreworld.py lines 291–299); `none`
models the IndexError that the 3+-branch would raise on an empty list
(unreachable from notify, where every listed person has at least one chore). -/
def chores_list (chores : List Chore) : Option String :=
  match chores with
  | [] => none
  | [c] => some (strLower c.name)
  | [c1, c2] => some (strLower c1.name ++ " and " ++ strLower c2.name)
  | cs =>
    some (String.intercalate ", " (cs.dropLast.map fun c => c.name)
      ++ ", and " ++ ((cs.getLast?.map Chore.name).getD ""))

/-- The notification body (line 305). -/
def composeMessage (person cl : String) : String :=
  person ++ ", your chores for the week are: " ++ cl

/-- Result of one requests.post call: a response carrying some HTTP status
(requests does not raise on a non-2xx status), or a raised exception (network
failure). -/
inductive SinkResult where
  | response (status : Nat)
  | raiseErr
deriving DecidableEq

/-- Python dict lookup `d.get(q)` over the association-list model of a dict
(keys unique, insertion order). -/
def dictGet {beta : Type} : List (String × beta) → String → Option beta
  | [], _ => none
  | (k, v) :: rest, q => if k = q then some v else dictGet rest q

/-- The per-person dispatch loop of `notify` (choreworld.py lines 289–310) for
one config path: walks person_assignments in order, looks up the person's
endpoint, composes the message and posts it; returns the (endpoint, body)
posts performed and whether an uncaught exception ended the loop early. -/
def notifyPeople (sink : String → SinkResult) (endpoints : List (String × String)) :
    List (String × List Chore) → List (String × String) × Bool
  | [] => ([], false)
  | (person, chores) :: rest =>
    match dictGet endpoints person with
    | none => ([], true)
    | some ep =>
      match chores_list chores with
      | none => ([], true)
      | some cl =>
        match sink ep with
        | .raiseErr => ([], true)
        | .response _ =>
          ((ep, composeMessage person cl) :: (notifyPeople sink endpoints rest).1,
            (notifyPeople sink endpoints rest).2)

/-- A sink that raises a network error on endpoint "urlA" and returns HTTP 200
elsewhere. -/
def sinkFailA : String → SinkResult := fun ep => if ep = "urlA" then .raiseErr else .response 200

/-- A concrete endpoint table for two people. -/
def epTable : List (String × String) := [("Ana", "urlA"), ("Ben", "urlB")]

/-- Concrete per-person assignments for the two people of epTable. -/
def asgTable : List (String × List Chore) :=
  [("Ana", [⟨"bins", "Bins"⟩]), ("Ben", [⟨"mop", "Mop"⟩])]

/-- Python host.rstrip(the slash character), modelled characterwise. -/
def rstripSlash (s : String) : String := ⟨(s.data.reverse.dropWhile fun c => c = '/').reverse⟩

/-- The minted endpoint URL (line 252): stripped host, a slash, then the fresh
identifier (uuid4 in the source). -/
def mkUrl (host ident : String) : String := rstripSlash host ++ "/" ++ ident

/-- The inner per-person loop of `ntfy_urls` (choreworld.py lines 249–253):
a person keeps an existing endpoint when the existing table has one, and
otherwise gets a freshly minted URL; `fresh i` is the identifier the
uuid4 supply yields at loop iteration i. -/
def genFrom (host : String) (existing : List (String × String)) (fresh : Nat → String) :
    Nat → List String → List (String × String)
  | _, [] => []
  | i, person :: ps =>
    (person, ((dictGet existing person).getD (mkUrl host (fresh i))))
      :: genFrom host existing fresh (i + 1) ps

/-- One config path of the `ntfy_urls` merge generation (lines 246–254). -/
def genPathEndpoints (host : String) (existing : List (String × String)) (fresh : Nat → String)
    (people : List String) : List (String × String) :=
  genFrom host existing fresh 0 people

/-- Function `get_people` (choreworld.py lines 202–206): every roster name over the
groups, deduplicated (list(set(...)); the set's unspecified iteration order
is modelled by List.dedup). -/
def get_people (chore_groups : List ChoreGroup) : List String :=
  (chore_groups.foldl (fun acc g => acc ++ g.people) []).dedup

/-- The outer loop of `ntfy_urls` over the configured paths (lines 245–254);
`fresh p i` is the identifier minted at iteration i of path number p. -/
def ntfyPaths (host : String) (existingTable : List (String × List (String × String)))
    (fresh : Nat → Nat → String) :
    Nat → List (String × List String) → List (String × List (String × String))
  | _, [] => []
  | pidx, (path, people) :: rest =>
    (path, genPathEndpoints host ((dictGet existingTable path).getD []) (fresh pidx) people)
      :: ntfyPaths host existingTable fresh (pidx + 1) rest

/-- Command `ntfy_urls` endpoint-table generation in merge-with-existing mode: for
each configured path (with its current people, as computed by get_people from
the loaded config), the per-path merge generation. -/
def ntfy_urls (host : String) (existingTable : List (String × List (String × String)))
    (fresh : Nat → Nat → String) (pathsPeople : List (String × List String)) :
    List (String × List (String × String)) :=
  ntfyPaths host existingTable fresh 0 pathsPeople

theorem add_emod_toNat (a b p : Nat) :
    (((a : Int) + (b : Int)) % (p : Int)).toNat = (a + b) % p := by
  have h1 : ((a : Int) + (b : Int)) = ((a + b : Nat) : Int) := by push_cast; ring
  rw [h1, ← Int.natCast_mod, Int.toNat_natCast]

theorem assignFrom_nil (off : Int) (people : List String) (i : Nat) :
    assignFrom off people i [] = Except.ok [] := rfl

theorem assignFrom_empty_people (off : Int) (i : Nat) (c : Chore) (cs : List Chore) :
    assignFrom off [] i (c :: cs) = Except.error PyError.zeroDivisionError := rfl

theorem assign_chores_empty_nonempty (k : Int) (g : ChoreGroup) (hp : g.people = [])
    (hc : g.chores ≠ []) : assign_chores k g = Except.error PyError.zeroDivisionError := by
  unfold assign_chores
  rw [hp]
  cases hcs : g.chores with
  | nil => exact absurd hcs hc
  | cons c cs => exact assignFrom_empty_people k 0 c cs

theorem assignFrom_ok (off : Int) (people : List String) (hp : people ≠ []) :
    ∀ (i : Nat) (cs : List Chore), ∃ m, assignFrom off people i cs = Except.ok m ∧
      m.length = cs.length ∧
      m.map Prod.fst = cs.map Chore.id ∧
      ∀ (k : Nat) (c : Chore), cs[k]? = some c → ∃ person,
        people[((((k + i : Nat) : Int) + off) % (people.length : Int)).toNat]? = some person ∧
          m[k]? = some (c.id, person) := by
  intro i cs
  induction cs generalizing i with
  | nil => exact ⟨[], rfl, rfl, rfl, by simp⟩
  | cons c cs ih =>
    have hlen : people.length ≠ 0 := by
      simpa [List.length_eq_zero] using hp
    have hlenZ : ((people.length : Nat) : Int) ≠ 0 := by exact_mod_cast hlen
    have hlenP : (0 : Int) < (people.length : Int) := by
      have := Nat.pos_of_ne_zero hlen
      exact_mod_cast this
    have hj0 : 0 ≤ ((i : Int) + off) % (people.length : Int) := Int.emod_nonneg _ hlenZ
    have hjlt : ((i : Int) + off) % (people.length : Int) < (people.length : Int) :=
      Int.emod_lt_of_pos _ hlenP
    have hjn : (((i : Int) + off) % (people.length : Int)).toNat < people.length := by omega
    obtain ⟨m, hm, hl, hk, hspec⟩ := ih (i + 1)
    refine ⟨(c.id, people.get ⟨(((i : Int) + off) % (people.length : Int)).toNat, hjn⟩) :: m,
      ?_, by simp [hl], by simp [hk], ?_⟩
    · have e1 : pyMod ((i : Int) + off) people.length =
          Except.ok (((i : Int) + off) % (people.length : Int)) := by
        unfold pyMod
        rw [if_neg hlen]
      have e2 : pyIndex people (((i : Int) + off) % (people.length : Int)) =
          Except.ok (people.get ⟨(((i : Int) + off) % (people.length : Int)).toNat, hjn⟩) := by
        unfold pyIndex
        rw [dif_pos (⟨hj0, hjn⟩ : _ ∧ _)]
      simp only [assignFrom, e1, e2, hm]
    · intro k c' hc'
      match k with
      | 0 =>
        have hcc : c = c' := by simpa using hc'
        subst hcc
        refine ⟨people.get ⟨(((i : Int) + off) % (people.length : Int)).toNat, hjn⟩, ?_, by simp⟩
        have hio : ((0 + i : Nat) : Int) = (i : Int) := by push_cast; ring
        rw [hio]
        simp [List.getElem?_eq_getElem, hjn]
      | k + 1 =>
        have hck : cs[k]? = some c' := by simpa using hc'
        obtain ⟨person, hpe, hme⟩ := hspec k c' hck
        refine ⟨person, ?_, by simpa using hme⟩
        have hidx : ((k + 1 + i : Nat) : Int) = ((k + (i + 1) : Nat) : Int) := by push_cast; ring
        rw [hidx]
        exact hpe

theorem rotIndexPerm (a p : Nat) (hp : 0 < p) :
    ((List.range p).map fun k => (a + k) % p).Perm (List.range p) := by
  have hnd : ((List.range p).map fun k => (a + k) % p).Nodup := by
    refine List.Nodup.map_on ?_ (List.nodup_range p)
    intro x hx y hy hxy
    rw [List.mem_range] at hx hy
    have h2 : x ≡ y [MOD p] := Nat.ModEq.add_left_cancel' a hxy
    rwa [Nat.ModEq, Nat.mod_eq_of_lt hx, Nat.mod_eq_of_lt hy] at h2
  refine List.perm_of_nodup_nodup_toFinset_eq hnd (List.nodup_range p) ?_
  refine Finset.eq_of_subset_of_card_le ?_ ?_
  · intro x hx
    rw [List.mem_toFinset] at hx ⊢
    rw [List.mem_map] at hx
    obtain ⟨k, -, rfl⟩ := hx
    rw [List.mem_range]
    exact Nat.mod_lt _ hp
  · rw [List.toFinset_card_of_nodup hnd, List.toFinset_card_of_nodup (List.nodup_range p)]
    simp

/-- C1: for every offset k and every group with a nonempty roster of p people
(and, as in the source dict, distinct chore ids), assign_chores succeeds and
maps the i-th chore (0-indexed, in list order) to the person at roster index
(i + k) mod p; the mapping is total — it has exactly one entry per chore, and
each chore id is assigned exactly once — and pure/deterministic: identical
arguments yield an identical mapping. -/
theorem assign_chores_rotation (k : Int) (g : ChoreGroup) (hp : 0 < g.people.length)
    (hnd : (g.chores.map Chore.id).Nodup) :
    ∃ m, assign_chores k g = Except.ok m ∧
      m.length = g.chores.length ∧
      (∀ (i : Nat) (c : Chore), g.chores[i]? = some c → ∃ person,
        g.people[(((i : Int) + k) % (g.people.length : Int)).toNat]? = some person ∧
          m[i]? = some (c.id, person)) ∧
      (∀ c ∈ g.chores, (m.map Prod.fst).count c.id = 1) ∧
      (∀ (k' : Int) (g' : ChoreGroup), k' = k → g' = g → assign_chores k' g' = assign_chores k g) := by
  have hne : g.people ≠ [] := by
    intro h
    rw [h] at hp
    simp at hp
  obtain ⟨m, hm, hlen, hkeys, hspec⟩ := assignFrom_ok k g.people hne 0 g.chores
  refine ⟨m, hm, hlen, ?_, ?_, ?_⟩
  · intro i c hc
    obtain ⟨person, hpe, hme⟩ := hspec i c hc
    refine ⟨person, ?_, hme⟩
    have hio : ((i + 0 : Nat) : Int) = (i : Int) := by push_cast; ring
    rw [hio] at hpe
    exact hpe
  · intro c hc
    rw [hkeys]
    exact List.count_eq_one_of_mem hnd (List.mem_map_of_mem _ hc)
  · intro k' g' h1 h2
    rw [h1, h2]

/-- C1 witness: assign_chores succeeds on the concrete group gMain (roster of
two, three chores with distinct ids) at offset 1. -/
theorem assign_chores_rotation_witness : ∃ m, assign_chores 1 gMain = Except.ok m := by
  obtain ⟨m, hm, -⟩ := assign_chores_rotation 1 gMain (by decide) (by decide)
  exact ⟨m, hm⟩

/-- C4 counterexample: the claim says an empty roster raises the configuration
error for every offset and every chore list, but with an empty roster AND an
empty chore list the comprehension never evaluates the modulus, so
assign_chores returns the empty mapping and raises nothing. -/
theorem assign_chores_empty_roster_counterexample :
    assign_chores 0 gEmpty = Except.ok [] ∧
      ¬ ∃ e, assign_chores 0 gEmpty = Except.error e := by
  refine ⟨rfl, ?_⟩
  rintro ⟨e, he⟩
  exact Except.noConfusion he

/-- C4 (amended): calling assign_chores with an empty roster raises the
configuration error (the ZeroDivisionError of `% 0`) and performs no partial
assignment, for every offset and every NONEMPTY chore list (with an empty
chore list it returns the empty mapping instead). -/
theorem assign_chores_empty_roster (k : Int) (g : ChoreGroup) (hp : g.people = [])
    (hc : g.chores ≠ []) : assign_chores k g = Except.error PyError.zeroDivisionError :=
  assign_chores_empty_nonempty k g hp hc

/-- C4 witness: the empty-roster group with one chore raises ZeroDivisionError
at offset 3. -/
theorem assign_chores_empty_roster_witness :
    assign_chores 3 gNoPeople = Except.error PyError.zeroDivisionError :=
  assign_chores_empty_roster 3 gNoPeople rfl (by decide)

/-- C9: assign_chores raises an error if and only if the roster is empty and
the chore list is nonempty; in particular a group with an empty chore list
yields the empty mapping without error at every offset, even when the roster
is also empty. -/
theorem assign_chores_error_iff (k : Int) (g : ChoreGroup) :
    ((∃ e, assign_chores k g = Except.error e) ↔ g.people = [] ∧ g.chores ≠ []) ∧
      (g.chores = [] → assign_chores k g = Except.ok []) := by
  have hok : g.chores = [] → assign_chores k g = Except.ok [] := by
    intro h
    unfold assign_chores
    rw [h]
    exact assignFrom_nil k g.people 0
  refine ⟨⟨?_, ?_⟩, hok⟩
  · rintro ⟨e, he⟩
    constructor
    · by_contra hne
      obtain ⟨m, hm, -, -, -⟩ := assignFrom_ok k g.people hne 0 g.chores
      unfold assign_chores at he
      rw [hm] at he
      exact Except.noConfusion he
    · intro hc
      rw [hok hc] at he
      exact Except.noConfusion he
  · rintro ⟨hp, hc⟩
    exact ⟨PyError.zeroDivisionError, assign_chores_empty_nonempty k g hp hc⟩

/-- C9 witness: at offset 5 the all-empty group returns the empty mapping
without error. -/
theorem assign_chores_error_iff_witness : assign_chores 5 gEmpty = Except.ok [] :=
  (assign_chores_error_iff 5 gEmpty).2 rfl

/-- C5: for a group with p ≥ 1 people and the chore at any fixed list position
i, the roster indices (i + k) mod p visited as k ranges over the offsets
0, ..., p-1 form a permutation of 0, ..., p-1 — each roster position serves
that chore exactly once per full cycle — and at each such offset the chore's
assignee produced by assign_chores is exactly the person at roster index
(i + k) mod p. -/
theorem rotation_fairness (g : ChoreGroup) (hp : 0 < g.people.length) (i : Nat)
    (hi : i < g.chores.length) :
    (((List.range g.people.length).map fun k => (i + k) % g.people.length).Perm
      (List.range g.people.length)) ∧
    ∀ k, k < g.people.length → ∃ person,
      choreAssignee (k : Int) g i = some person ∧
        g.people[(i + k) % g.people.length]? = some person := by
  refine ⟨rotIndexPerm i g.people.length hp, ?_⟩
  intro k hk
  have hne : g.people ≠ [] := by
    intro h
    rw [h] at hp
    simp at hp
  obtain ⟨m, hm, hlen, hkeys, hspec⟩ := assignFrom_ok (k : Int) g.people hne 0 g.chores
  obtain ⟨c, hc⟩ : ∃ c, g.chores[i]? = some c := ⟨g.chores[i], List.getElem?_eq_getElem hi⟩
  obtain ⟨person, hpe, hme⟩ := hspec i c hc
  refine ⟨person, ?_, ?_⟩
  · unfold choreAssignee assign_chores
    rw [hm]
    show Option.map Prod.snd m[i]? = some person
    rw [hme]
    rfl
  · rw [add_emod_toNat (i + 0) k g.people.length] at hpe
    simpa using hpe

/-- C5 witness: in gMain (two people), the chore at position 0 at offset 1 is
assigned, and its assignee is the person at roster index (0 + 1) mod 2. -/
theorem rotation_fairness_witness : ∃ person,
    choreAssignee ((1 : Nat) : Int) gMain 0 = some person ∧
      gMain.people[(0 + 1) % gMain.people.length]? = some person :=
  (rotation_fairness gMain (by decide) 0 (by decide)).2 1 (by decide)

theorem week_sunday_day (d : Datetime) : (week_sunday d).day = 7 * weekIndex d := by
  show d.day + ((6 - (weekday d : Int)) % 7) = 7 * weekIndex d
  unfold weekday weekIndex
  rw [Int.fdiv_eq_ediv _ (by omega)]
  omega

theorem offset_week_sunday (d : Datetime) : offset (week_sunday d) = weekIndex d := by
  have hday := week_sunday_day d
  have hsec : (week_sunday d).sec = d.sec := rfl
  have hs := d.sec_lt
  unfold offset tdDays tdSeconds
  rw [hday, hsec]
  rw [show START_WEEK.day = 0 from rfl, show START_WEEK.sec = 0 from rfl]
  rw [Int.fdiv_eq_ediv _ (by omega), Int.fdiv_eq_ediv _ (by omega)]
  generalize weekIndex d = W
  omega

/-- C3 counterexample: Monday 2021-04-12 and Sunday 2021-04-18 fall in the
same Monday-to-Sunday week, yet offset applied to the two instants themselves
returns 0 for the Monday and 1 for the Sunday — rotationOffset is not constant
on the instants of a week (only its composition with the week_sunday boundary
is). -/
theorem offset_differs_within_week :
    sameWeek dtMonday dtSunday ∧ offset dtMonday ≠ offset dtSunday := by
  constructor
  · decide
  · decide

/-- C3 (amended): for any two instants in the same Monday-to-Sunday calendar
week of the configured timezone, week_sunday returns the same Sunday (the same
calendar day) for both, and offset applied to that week_sunday boundary — as
the build pipeline applies it — returns the same integer for both. -/
theorem week_boundary_determinism (a b : Datetime) (h : sameWeek a b) :
    (week_sunday a).day = (week_sunday b).day ∧
      offset (week_sunday a) = offset (week_sunday b) := by
  unfold sameWeek at h
  constructor
  · rw [week_sunday_day, week_sunday_day, h]
  · rw [offset_week_sunday, offset_week_sunday, h]

/-- C3 witness: the Monday and Sunday of the week of 2021-04-18 share their
week_sunday day and its offset. -/
theorem week_boundary_determinism_witness :
    (week_sunday dtMonday).day = (week_sunday dtSunday).day ∧
      offset (week_sunday dtMonday) = offset (week_sunday dtSunday) :=
  week_boundary_determinism dtMonday dtSunday (by decide)

theorem runStaging_output (steps : List StageStep) :
    ∀ fs : FSpace, ((runStaging steps fs).2).output = fs.output := by
  induction steps with
  | nil => intro fs; rfl
  | cons s rest ih =>
    intro fs
    cases s with
    | copyDir d cs => exact (ih _).trans rfl
    | renderTemplate p r => exact (ih _).trans rfl
    | writeFile p c => exact (ih _).trans rfl
    | throwStep => rfl

/-- C2: if any staging step raises an exception, the scratch directory is
discarded and the previously published live output is left unchanged; the
live output is replaced by the scratch contents (old directory removed,
scratch moved into its place, scratch gone) only when every staging step
succeeded. -/
theorem builder_atomicity (steps : List StageStep) (prev : Option (List (String × String))) :
    ((runStaging steps ⟨[], prev⟩).1 = true →
      (runBuild steps prev).output = prev ∧ (runBuild steps prev).tempdir = []) ∧
    ((runStaging steps ⟨[], prev⟩).1 = false →
      (runBuild steps prev).output = some (runStaging steps ⟨[], prev⟩).2.tempdir ∧
        (runBuild steps prev).tempdir = []) := by
  constructor
  · intro hexc
    unfold runBuild builderExit
    rw [hexc]
    exact ⟨runStaging_output steps ⟨[], prev⟩, rfl⟩
  · intro hexc
    unfold runBuild builderExit
    rw [hexc]
    exact ⟨rfl, rfl⟩

/-- C2 witness: a build whose second staging step raises leaves the previously
published output untouched and discards the scratch. -/
theorem builder_atomicity_witness :
    (runBuild [StageStep.writeFile "/CNAME" "chore.world", StageStep.throwStep]
        (some [("index.html", "old")])).output = some [("index.html", "old")] ∧
      (runBuild [StageStep.writeFile "/CNAME" "chore.world", StageStep.throwStep]
        (some [("index.html", "old")])).tempdir = [] :=
  (builder_atomicity [StageStep.writeFile "/CNAME" "chore.world", StageStep.throwStep]
    (some [("index.html", "old")])).1 (by decide)

theorem chores_list_three (a b c : Chore) (rest : List Chore) :
    chores_list (a :: b :: c :: rest) =
      some (String.intercalate ", " ((a :: b :: c :: rest).dropLast.map fun x => x.name)
        ++ ", and " ++ (((a :: b :: c :: rest).getLast?.map Chore.name).getD "")) := rfl

/-- C6: the notification chore-list text is built exactly as specified: one
chore gives the lowercased name; two chores give both lowercased names joined
by " and "; three or more give all but the last joined by ", " in original
case, then ", and " and the last name in original case; in particular the
names bins / bins,mop / Bins,Mop,Vacuum give "bins", "bins and mop" and
"Bins, Mop, and Vacuum". -/
theorem notify_pluralization (c1 c2 cl : Chore) (cs : List Chore) :
    chores_list [c1] = some (strLower c1.name) ∧
    chores_list [c1, c2] = some (strLower c1.name ++ " and " ++ strLower c2.name) ∧
    chores_list (c1 :: c2 :: cs ++ [cl]) =
      some (String.intercalate ", " ((c1 :: c2 :: cs).map fun c => c.name)
        ++ ", and " ++ cl.name) ∧
    chores_list [⟨"bins", "bins"⟩] = some "bins" ∧
    chores_list [⟨"bins", "bins"⟩, ⟨"mop", "mop"⟩] = some "bins and mop" ∧
    chores_list [⟨"b", "Bins"⟩, ⟨"m", "Mop"⟩, ⟨"v", "Vacuum"⟩] = some "Bins, Mop, and Vacuum" := by
  refine ⟨rfl, rfl, ?_, by decide, by decide, by decide⟩
  cases cs with
  | nil => rfl
  | cons c3 cs' =>
    rw [show c1 :: c2 :: (c3 :: cs') ++ [cl] = c1 :: c2 :: c3 :: (cs' ++ [cl]) from rfl]
    rw [chores_list_three]
    rw [show c1 :: c2 :: c3 :: (cs' ++ [cl]) = (c1 :: c2 :: c3 :: cs') ++ [cl] by simp]
    rw [List.dropLast_concat, List.getLast?_concat]
    rfl

/-- C7 counterexample: notify has no try/except around requests.post, so a
raised network error while delivering to the first person aborts the loop:
with a sink that raises on Ana's endpoint, nothing is dispatched at all —
Ben's notification is neither composed nor posted, refuting the claim that
every remaining person is still dispatched. -/
theorem notify_abort_on_raise : notifyPeople sinkFailA epTable asgTable = ([], true) := by
  decide

/-- C7 (amended): a failure RESPONSE from the sink (any HTTP status, including
non-2xx, which requests.post returns without raising) does not abort
processing: when the sink returns a response for every person in the batch
(each having an endpoint and a nonempty chore list), every person's
notification is composed and dispatched and the loop finishes; only a raised
exception (e.g. a network error) aborts the remaining batch, and no failure
is reported either way. -/
theorem notify_response_no_abort (sink : String → SinkResult)
    (endpoints : List (String × String)) (asg : List (String × List Chore))
    (h : ∀ p cs, (p, cs) ∈ asg → ∃ ep st cl, dictGet endpoints p = some ep ∧
      sink ep = SinkResult.response st ∧ chores_list cs = some cl) :
    (notifyPeople sink endpoints asg).2 = false ∧
      (notifyPeople sink endpoints asg).1.length = asg.length := by
  induction asg with
  | nil => exact ⟨rfl, rfl⟩
  | cons pc rest ih =>
    obtain ⟨p, cs⟩ := pc
    obtain ⟨ep, st, cl, hep, hst, hcl⟩ := h p cs (List.mem_cons_self _ _)
    have ihh := ih fun q ds hq => h q ds (List.mem_cons_of_mem _ hq)
    unfold notifyPeople
    rw [hep, hcl]
    simp only [hst, List.length_cons]
    exact ⟨ihh.1, by rw [ihh.2]⟩

/-- C7 witness: with a sink answering HTTP 500 for everyone, both people of
the concrete batch are dispatched and the loop does not abort. -/
theorem notify_response_no_abort_witness :
    (notifyPeople (fun _ => SinkResult.response 500) epTable asgTable).2 = false ∧
      (notifyPeople (fun _ => SinkResult.response 500) epTable asgTable).1.length =
        asgTable.length := by
  refine notify_response_no_abort (fun _ => SinkResult.response 500) epTable asgTable ?_
  intro p cs hmem
  simp only [asgTable, List.mem_cons, Prod.mk.injEq, List.not_mem_nil, or_false] at hmem
  rcases hmem with ⟨rfl, rfl⟩ | ⟨rfl, rfl⟩
  · exact ⟨"urlA", 500, "bins", by decide, rfl, by decide⟩
  · exact ⟨"urlB", 500, "mop", by decide, rfl, by decide⟩

theorem genFrom_keys (host : String) (ex : List (String × String)) (fresh : Nat → String) :
    ∀ (i : Nat) (ps : List String), (genFrom host ex fresh i ps).map Prod.fst = ps := by
  intro i ps
  induction ps generalizing i with
  | nil => rfl
  | cons p ps ih => simp [genFrom, ih]

theorem genPath_keys (host : String) (ex : List (String × String)) (fresh : Nat → String)
    (people : List String) : (genPathEndpoints host ex fresh people).map Prod.fst = people :=
  genFrom_keys host ex fresh 0 people

theorem genFrom_dictGet_existing (host : String) (ex : List (String × String))
    (fresh : Nat → String) :
    ∀ (i : Nat) (ps : List String) (q u : String), q ∈ ps → dictGet ex q = some u →
      dictGet (genFrom host ex fresh i ps) q = some u := by
  intro i ps
  induction ps generalizing i with
  | nil =>
    intro q u hq hu
    exact absurd hq (List.not_mem_nil q)
  | cons p ps ih =>
    intro q u hq hu
    by_cases hpq : p = q
    · subst hpq
      simp [genFrom, dictGet, hu]
    · have hq' : q ∈ ps := by
        rcases List.mem_cons.mp hq with h | h
        · exact absurd h.symm hpq
        · exact h
      simp only [genFrom, dictGet, if_neg hpq]
      exact ih (i + 1) q u hq' hu

theorem genFrom_dictGet_new (host : String) (ex : List (String × String))
    (fresh : Nat → String) :
    ∀ (i : Nat) (ps : List String) (q : String), q ∈ ps → dictGet ex q = none →
      ∃ j, dictGet (genFrom host ex fresh i ps) q = some (mkUrl host (fresh j)) := by
  intro i ps
  induction ps generalizing i with
  | nil =>
    intro q hq hu
    exact absurd hq (List.not_mem_nil q)
  | cons p ps ih =>
    intro q hq hu
    by_cases hpq : p = q
    · subst hpq
      exact ⟨i, by simp [genFrom, dictGet, hu]⟩
    · have hq' : q ∈ ps := by
        rcases List.mem_cons.mp hq with h | h
        · exact absurd h.symm hpq
        · exact h
      obtain ⟨j, hj⟩ := ih (i + 1) q hq' hu
      refine ⟨j, ?_⟩
      simp only [genFrom, dictGet, if_neg hpq]
      exact hj

/-- C8: in merge-with-existing mode, every person present in both the existing
endpoint table and the current roster keeps exactly their previously issued
endpoint URL, and every person of the roster absent from the existing table
receives a freshly minted endpoint — the stripped base host followed by a new
identifier — which (under the uuid4 freshness assumption) is distinct from
every previously issued endpoint. -/
theorem ntfy_merge (host : String) (existing : List (String × String)) (fresh : Nat → String)
    (people : List String)
    (hfresh : ∀ j, mkUrl host (fresh j) ∉ existing.map Prod.snd) :
    (∀ p u, p ∈ people → dictGet existing p = some u →
      dictGet (genPathEndpoints host existing fresh people) p = some u) ∧
    (∀ p, p ∈ people → dictGet existing p = none →
      ∃ j, dictGet (genPathEndpoints host existing fresh people) p =
          some (mkUrl host (fresh j)) ∧
        mkUrl host (fresh j) ∉ existing.map Prod.snd) := by
  constructor
  · intro p u hp hu
    exact genFrom_dictGet_existing host existing fresh 0 people p u hp hu
  · intro p hp hu
    obtain ⟨j, hj⟩ := genFrom_dictGet_new host existing fresh 0 people p hp hu
    exact ⟨j, hj, hfresh j⟩

/-- C8 witness: regenerating for the roster Alice, Bob against an existing
table mapping Alice to E1 keeps E1 for Alice and mints the fresh host-based
URL for Bob, unused in the existing table. -/
theorem ntfy_merge_witness :
    dictGet (genPathEndpoints "https://ntfy.sh" [("Alice", "E1")] (fun _ => "bob-uuid")
        ["Alice", "Bob"]) "Alice" = some "E1" ∧
      dictGet (genPathEndpoints "https://ntfy.sh" [("Alice", "E1")] (fun _ => "bob-uuid")
          ["Alice", "Bob"]) "Bob" = some (mkUrl "https://ntfy.sh" "bob-uuid") ∧
        mkUrl "https://ntfy.sh" "bob-uuid" ∉ ([("Alice", "E1")].map Prod.snd : List String) := by
  have hfresh : ∀ j : Nat, mkUrl "https://ntfy.sh" "bob-uuid" ∉
      ([("Alice", "E1")].map Prod.snd : List String) := by
    intro j
    decide
  refine ⟨?_, ?_⟩
  · exact (ntfy_merge "https://ntfy.sh" [("Alice", "E1")] (fun _ => "bob-uuid")
      ["Alice", "Bob"] hfresh).1 "Alice" "E1" (by decide) (by decide)
  · obtain ⟨j, hj, hnotin⟩ := (ntfy_merge "https://ntfy.sh" [("Alice", "E1")]
      (fun _ => "bob-uuid") ["Alice", "Bob"] hfresh).2 "Bob" (by decide) (by decide)
    exact ⟨hj, hnotin⟩

theorem ntfyPaths_keys (host : String) (ext : List (String × List (String × String)))
    (fresh : Nat → Nat → String) :
    ∀ (i : Nat) (pp : List (String × List String)),
      (ntfyPaths host ext fresh i pp).map Prod.fst = pp.map Prod.fst := by
  intro i pp
  induction pp generalizing i with
  | nil => rfl
  | cons c rest ih =>
    obtain ⟨path, people⟩ := c
    simp [ntfyPaths, ih]

theorem ntfyPaths_dictGet_none (host : String) (ext : List (String × List (String × String)))
    (fresh : Nat → Nat → String) :
    ∀ (i : Nat) (pp : List (String × List String)) (path : String), dictGet pp path = none →
      dictGet (ntfyPaths host ext fresh i pp) path = none := by
  intro i pp
  induction pp generalizing i with
  | nil => intro path h; rfl
  | cons c rest ih =>
    obtain ⟨q, ppl⟩ := c
    intro path h
    by_cases hq : q = path
    · exfalso
      simp [dictGet, hq] at h
    · simp only [dictGet, if_neg hq] at h
      simp only [ntfyPaths, dictGet, if_neg hq]
      exact ih (i + 1) path h

theorem ntfyPaths_dictGet_some (host : String) (ext : List (String × List (String × String)))
    (fresh : Nat → Nat → String) :
    ∀ (i : Nat) (pp : List (String × List String)) (path : String) (people : List String),
      dictGet pp path = some people →
        ∃ j, dictGet (ntfyPaths host ext fresh i pp) path =
          some (genPathEndpoints host ((dictGet ext path).getD []) (fresh j) people) := by
  intro i pp
  induction pp generalizing i with
  | nil =>
    intro path people h
    exact absurd h (by simp [dictGet])
  | cons c rest ih =>
    obtain ⟨q, ppl⟩ := c
    intro path people h
    by_cases hq : q = path
    · subst hq
      have hppl : ppl = people := by
        simpa [dictGet] using h
      subst hppl
      exact ⟨i, by simp [ntfyPaths, dictGet]⟩
    · simp only [dictGet, if_neg hq] at h
      obtain ⟨j, hj⟩ := ih (i + 1) path people h
      refine ⟨j, ?_⟩
      simp only [ntfyPaths, dictGet, if_neg hq]
      exact hj

theorem foldl_append_people (gs : List ChoreGroup) :
    ∀ acc : List String,
      gs.foldl (fun a g => a ++ g.people) acc = acc ++ (gs.map ChoreGroup.people).flatten := by
  induction gs with
  | nil => intro acc; simp
  | cons g gs ih =>
    intro acc
    simp [List.foldl_cons, ih, List.append_assoc]

theorem get_people_mem (gs : List ChoreGroup) (q : String) :
    q ∈ get_people gs ↔ ∃ g, g ∈ gs ∧ q ∈ g.people := by
  unfold get_people
  rw [List.mem_dedup, foldl_append_people, List.nil_append, List.mem_flatten]
  constructor
  · rintro ⟨l, hl, hql⟩
    rw [List.mem_map] at hl
    obtain ⟨g, hg, rfl⟩ := hl
    exact ⟨g, hg, hql⟩
  · rintro ⟨g, hg, hq⟩
    exact ⟨g.people, List.mem_map_of_mem _ hg, hq⟩

theorem dictGet_map_value {beta gamma : Type} (f : beta → gamma) :
    ∀ (l : List (String × beta)) (path : String),
      dictGet (l.map fun c => (c.1, f c.2)) path = (dictGet l path).map f := by
  intro l
  induction l with
  | nil => intro path; rfl
  | cons c rest ih =>
    obtain ⟨k, v⟩ := c
    intro path
    by_cases hk : k = path
    · simp [dictGet, hk]
    · simp [dictGet, hk, ih]

/-- C10: the endpoint table produced by the merge regeneration contains, for
each configured path, exactly the people of that path's current rosters — for
every path of the current config the produced entry's keys are exactly
get_people of its groups (people no longer in any roster are dropped), and a
path absent from the current config set is absent from the output even when
the existing table mentions it. -/
theorem ntfy_urls_exact_rosters (host : String)
    (existingTable : List (String × List (String × String))) (fresh : Nat → Nat → String)
    (configs : List (String × List ChoreGroup)) :
    ((ntfy_urls host existingTable fresh (configs.map fun c => (c.1, get_people c.2))).map
        Prod.fst = configs.map Prod.fst) ∧
    (∀ path groups, dictGet configs path = some groups →
      ∃ v, dictGet (ntfy_urls host existingTable fresh
          (configs.map fun c => (c.1, get_people c.2))) path = some v ∧
        v.map Prod.fst = get_people groups ∧
        ∀ q, (q ∈ v.map Prod.fst ↔ ∃ g, g ∈ groups ∧ q ∈ g.people)) ∧
    (∀ path, dictGet configs path = none →
      dictGet (ntfy_urls host existingTable fresh
        (configs.map fun c => (c.1, get_people c.2))) path = none) := by
  refine ⟨?_, ?_, ?_⟩
  · unfold ntfy_urls
    rw [ntfyPaths_keys]
    simp
  · intro path groups hpg
    have h1 : dictGet (configs.map fun c => (c.1, get_people c.2)) path =
        some (get_people groups) := by
      rw [dictGet_map_value, hpg]
      rfl
    obtain ⟨j, hj⟩ := ntfyPaths_dictGet_some host existingTable fresh 0 _ path _ h1
    refine ⟨_, hj, genPath_keys _ _ _ _, ?_⟩
    intro q
    rw [genPath_keys]
    exact get_people_mem groups q
  · intro path hnone
    have h1 : dictGet (configs.map fun c => (c.1, get_people c.2)) path = none := by
      rw [dictGet_map_value, hnone]
      rfl
    exact ntfyPaths_dictGet_none host existingTable fresh 0 _ path h1

/-- C10 witness: with one configured path whose roster is gMain's, an existing
table carrying a stale person and a stale path produces an output that still
has no entry for the stale path. -/
theorem ntfy_urls_exact_rosters_witness :
    dictGet (ntfy_urls "https://ntfy.sh"
        [("chch.yaml", [("Old", "E9")]), ("stale.yaml", [("Zed", "E0")])]
        (fun _ _ => "fresh-id")
        (([("chch.yaml", [gMain])] : List (String × List ChoreGroup)).map
          fun c => (c.1, get_people c.2))) "stale.yaml" = none :=
  (ntfy_urls_exact_rosters "https://ntfy.sh"
    [("chch.yaml", [("Old", "E9")]), ("stale.yaml", [("Zed", "E0")])]
    (fun _ _ => "fresh-id") [("chch.yaml", [gMain])]).2.2 "stale.yaml" (by decide)
